import Mathlib

/-!
Verification of the nanobot Railway admin server (`server.py`):
the secret-masking / secret-merging configuration algebra, the
validation-error redaction pass, the bounded log ring, and the
gateway process supervisor.
-/

set_option maxHeartbeats 1000000
set_option maxRecDepth 4000

namespace NanobotServer

/-- A JSON-like configuration tree, as handled by `server.py`
(`mask_secrets`, `merge_secrets`, `_collect_secret_values`):
Python dicts become ordered association lists, Python lists become
lists, strings stay strings, and the remaining scalars are
represented by `int`, `bool` and `null`. -/
inductive Value where
  | str : String → Value
  | int : Int → Value
  | bool : Bool → Value
  | null : Value
  | list : List Value → Value
  | dict : List (String × Value) → Value

mutual

/-- Boolean equality on trees (decidable equality is derived from it). -/
def beqV : Value → Value → Bool
  | .str a, .str b => a == b
  | .int a, .int b => a == b
  | .bool a, .bool b => a == b
  | .null, .null => true
  | .list a, .list b => beqL a b
  | .dict a, .dict b => beqD a b
  | _, _ => false

/-- Boolean equality on lists of trees. -/
def beqL : List Value → List Value → Bool
  | [], [] => true
  | a :: as, b :: bs => beqV a b && beqL as bs
  | _, _ => false

/-- Boolean equality on association lists of trees. -/
def beqD : List (String × Value) → List (String × Value) → Bool
  | [], [] => true
  | (k, v) :: as, (k', v') :: bs => k == k' && beqV v v' && beqD as bs
  | _, _ => false

end

mutual

theorem beqV_iff : ∀ a b, beqV a b = true ↔ a = b
  | a, b => by
    cases a <;> cases b <;> simp [beqV]
    case list.list x y => exact beqL_iff x y
    case dict.dict x y => exact beqD_iff x y

theorem beqL_iff : ∀ a b, beqL a b = true ↔ a = b
  | [], [] => by simp [beqL]
  | [], _ :: _ => by simp [beqL]
  | _ :: _, [] => by simp [beqL]
  | a :: as, b :: bs => by simp [beqL, beqV_iff a b, beqL_iff as bs]

theorem beqD_iff : ∀ a b, beqD a b = true ↔ a = b
  | [], [] => by simp [beqD]
  | [], _ :: _ => by simp [beqD]
  | _ :: _, [] => by simp [beqD]
  | (k, v) :: as, (k', v') :: bs => by
    simp [beqD, beqV_iff v v', beqD_iff as bs, and_assoc]

end

instance : DecidableEq Value := fun a b =>
  decidable_of_iff (beqV a b = true) (beqV_iff a b)

/-- `SECRET_FIELDS` from `server.py` line 30 (a Python set; modelled
as the list of its elements — only membership is ever used). -/
def SECRET_FIELDS : List String :=
  ["api_key", "apiKey", "token", "app_secret", "appSecret",
   "encrypt_key", "encryptKey", "verification_token", "verificationToken"]

/-- Python `s[:n]` for a nonnegative `n`. -/
def pyTake (s : String) (n : Nat) : String := ⟨s.data.take n⟩

/-- Python `s.endswith(t)`. -/
def pyEndsWith (s t : String) : Prop := t.data <:+ s.data

instance (s t : String) : Decidable (pyEndsWith s t) :=
  inferInstanceAs (Decidable (t.data <:+ s.data))

/-- Python `d.get(k, default)` on the association-list model of a
dict: the first binding of `k`, if any (Python dicts never hold a
key twice, so "first" is exact). -/
def dGet : List (String × Value) → String → Option Value
  | [], _ => none
  | (k, v) :: rest, key => if k = key then some v else dGet rest key

mutual

/-- `mask_secrets` from `server.py` lines 201-212 (the unused `_path`
debugging parameter is dropped). -/
def mask_secrets : Value → Value
  | .dict entries => .dict (maskDict entries)
  | .list items => .list (maskList items)
  | v => v

/-- The dict branch of `mask_secrets` (lines 203-209): for each entry,
if the key is a secret field and the value a non-empty string, replace
the value by `v[:8] + "***"` when `len(v) > 8` and by `"***"`
otherwise; all other entries recurse. -/
def maskDict : List (String × Value) → List (String × Value)
  | [] => []
  | (k, v) :: rest =>
    (k, match v with
        | .str s =>
          if k ∈ SECRET_FIELDS ∧ s ≠ "" then
            .str (if 8 < s.length then pyTake s 8 ++ "***" else "***")
          else mask_secrets (.str s)
        | w => mask_secrets w) :: maskDict rest

/-- The list branch of `mask_secrets` (line 211). -/
def maskList : List Value → List Value
  | [] => []
  | v :: rest => mask_secrets v :: maskList rest

end

/-- The value `mask_secrets` assigns to one dict entry `(k, v)`
(`server.py` lines 205-208), as a standalone function for reasoning:
`maskDict` computes exactly `(k, maskEntry k v)` for each entry
(theorem `maskDict_cons` below). -/
def maskEntry (k : String) : Value → Value
  | .str s =>
    if k ∈ SECRET_FIELDS ∧ s ≠ "" then
      .str (if 8 < s.length then pyTake s 8 ++ "***" else "***")
    else mask_secrets (.str s)
  | w => mask_secrets w

mutual

/-- `merge_secrets` from `server.py` lines 229-238. -/
def merge_secrets : Value → Value → Value
  | .dict newData, .dict existing => .dict (mergeDict newData existing)
  | newData, _ => newData

/-- The dict/dict branch of `merge_secrets` (lines 231-237): a secret
entry whose submitted string is empty or ends with `"***"` is restored
from `existing.get(k, "")`; every other entry recurses with
`existing.get(k, {})` as fallback. -/
def mergeDict : List (String × Value) → List (String × Value) → List (String × Value)
  | [], _ => []
  | (k, v) :: rest, existing =>
    (k, match v with
        | .str s =>
          if k ∈ SECRET_FIELDS ∧ (pyEndsWith s "***" ∨ s = "") then
            (dGet existing k).getD (.str "")
          else merge_secrets (.str s) ((dGet existing k).getD (.dict []))
        | w => merge_secrets w ((dGet existing k).getD (.dict []))) :: mergeDict rest existing

end

/-- The value `merge_secrets` assigns to one submitted dict entry
`(k, v)` (`server.py` lines 233-236), as a standalone function for
reasoning: `mergeDict` computes exactly `(k, mergeEntry k v existing)`
for each entry (theorem `mergeDict_cons` below). -/
def mergeEntry (k : String) (v : Value) (existing : List (String × Value)) : Value :=
  match v with
  | .str s =>
    if k ∈ SECRET_FIELDS ∧ (pyEndsWith s "***" ∨ s = "") then
      (dGet existing k).getD (.str "")
    else merge_secrets (.str s) ((dGet existing k).getD (.dict []))
  | w => merge_secrets w ((dGet existing k).getD (.dict []))

mutual

/-- `_collect_secret_values` from `server.py` lines 215-226. -/
def collectSecretValues : Value → String → List String
  | .dict entries, fieldName => collectDict entries fieldName
  | .list items, fieldName => collectList items fieldName
  | _, _ => []

/-- The dict branch of `_collect_secret_values` (lines 217-222): an
entry whose key equals the field name and whose value is a string is
collected; every other entry recurses into the value. -/
def collectDict : List (String × Value) → String → List String
  | [], _ => []
  | (k, v) :: rest, fieldName =>
    (match v with
     | .str s => if k = fieldName then [s] else []
     | w => collectSecretValues w fieldName) ++ collectDict rest fieldName

/-- The list branch of `_collect_secret_values` (lines 223-225). -/
def collectList : List Value → String → List String
  | [], _ => []
  | v :: rest, fieldName => collectSecretValues v fieldName ++ collectList rest fieldName

end

/-- The values `_collect_secret_values` contributes for one dict
entry `(k, v)` (`server.py` lines 219-222), as a standalone function
for reasoning: `collectDict` computes exactly
`collectEntry k v fieldName ++ collectDict rest fieldName` for each
entry (theorem `collectDict_cons` below). -/
def collectEntry (k : String) (v : Value) (fieldName : String) : List String :=
  match v with
  | .str s => if k = fieldName then [s] else []
  | w => collectSecretValues w fieldName

/-- Worker for Python `s.replace(old, new)`: greedy left-to-right
replacement of non-overlapping occurrences. The fuel argument (always
instantiated with the length of the scanned list, an upper bound on
the number of steps) only makes the recursion structural; each step
either consumes one character or at least `old.length ≥ 1` characters. -/
def listReplaceFuel : Nat → List Char → List Char → List Char → List Char
  | 0, _, _, xs => xs
  | _ + 1, [], _, xs => xs
  | _ + 1, _ :: _, _, [] => []
  | fuel + 1, a :: s, t, x :: xs =>
    if (a :: s) <+: (x :: xs) then
      t ++ listReplaceFuel fuel (a :: s) t ((x :: xs).drop (a :: s).length)
    else x :: listReplaceFuel fuel (a :: s) t xs

/-- Python `s.replace(old, new)` (for the non-empty patterns used by
`server.py`; the empty pattern is never passed, see the `len(val) > 3`
guard at line 287). -/
def pyReplace (s old new : String) : String := ⟨listReplaceFuel s.data.length old.data new.data s.data⟩

/-- The validation-error redaction pass of `api_config_put`
(`server.py` lines 284-288): for every secret field name and every
value collected for it from the snake-cased merged tree, if the value
is non-empty and longer than 3 characters, replace its occurrences in
the error text by `"***"`. `SECRET_FIELDS` is a Python set, so its
iteration order is unspecified; the list order is one of the possible
orders, and the properties proved below hold for every order. -/
def redactErrMsg (errMsg : String) (snakeData : Value) : String :=
  SECRET_FIELDS.foldl (fun em field =>
    (collectSecretValues snakeData field).foldl (fun em' val =>
      if val ≠ "" ∧ 3 < val.length then pyReplace em' val "***" else em') em) errMsg

/-- All secret-field string values of a tree: the union, over the
secret field names, of the values `_collect_secret_values` gathers. -/
def allSecretValues (data : Value) : List String :=
  SECRET_FIELDS.flatMap (collectSecretValues data)

/-- The capacity of the log ring: `deque(maxlen=500)` at line 125. -/
def LOG_MAXLEN : Nat := 500

/-- One `deque(maxlen=500).append(line)`: append at the tail and, if
the buffer is full, discard the head (oldest line) first. The list
order is insertion order, oldest first, exactly the order
`list(gateway.logs)` reads out at line 339. -/
def ringAppend (buf : List String) (line : String) : List String :=
  if buf.length < LOG_MAXLEN then buf ++ [line] else buf.drop 1 ++ [line]

/-- A child-process handle as `GatewayManager` sees it: a pid and a
return code that is `none` while the process is alive. -/
structure ProcHandle where
  pid : Nat
  returncode : Option Int
deriving DecidableEq

/-- The state of `GatewayManager` (`server.py` lines 121-128): the
process handle, the lifecycle state string, the log ring, the start
timestamp and the restart counter. Timestamps are abstract `Nat`s. -/
structure GatewayManager where
  process : Option ProcHandle
  state : String
  logs : List String
  start_time : Option Nat
  restart_count : Nat
deriving DecidableEq

/-- Outcome of one `asyncio.create_subprocess_exec` attempt (an
external effect): either a fresh live handle with some pid, or an
exception whose text is `e`. -/
inductive SpawnResult where
  | ok : Nat → SpawnResult
  | fail : String → SpawnResult
deriving DecidableEq

/-- `self.process and self.process.returncode is None` (line 131). -/
def procAlive : Option ProcHandle → Bool
  | some h => h.returncode.isNone
  | none => false

/-- `GatewayManager.start` (lines 130-146). The spawn outcome is a
parameter; the returned number counts the child processes the call
spawned (1 on a successful spawn, 0 on the early return or a spawn
failure). On success the state becomes `"running"` with a fresh live
handle and start time; on failure the state becomes `"error"` and a
failure line is appended to the log ring, the old handle staying put. -/
def GatewayManager.start (g : GatewayManager) (res : SpawnResult) (now : Nat) :
    GatewayManager × Nat :=
  if procAlive g.process then (g, 0)
  else
    match res with
    | .ok pid =>
      ({ g with process := some ⟨pid, none⟩, state := "running", start_time := some now }, 1)
    | .fail e =>
      ({ g with state := "error",
                logs := ringAppend g.logs ("Failed to start gateway: " ++ e) }, 0)

/-- `GatewayManager.stop` (lines 148-160). If no live process exists,
only the state is reset to `"stopped"` (early return at line 151).
Otherwise the child is terminated (force-killed on timeout) and
waited for — after which its handle carries the exit code — and the
state and start time are cleared. -/
def GatewayManager.stop (g : GatewayManager) (exitCode : Int) : GatewayManager :=
  if procAlive g.process then
    { g with state := "stopped", start_time := none,
             process := g.process.map fun h => { h with returncode := some exitCode } }
  else { g with state := "stopped" }

/-- `GatewayManager.restart` (lines 162-165): `stop()`, then
`restart_count += 1`, then `start()`. -/
def GatewayManager.restart (g : GatewayManager) (exitCode : Int) (res : SpawnResult)
    (now : Nat) : GatewayManager × Nat :=
  let g1 := g.stop exitCode
  let g2 := { g1 with restart_count := g1.restart_count + 1 }
  g2.start res now

mutual

/-- Hypothesis of the masking round-trip claim: every entry of the
tree whose key is a secret field holds a non-empty string. -/
def secretsNonEmptyStr : Value → Prop
  | .dict entries => secretsNonEmptyStrDict entries
  | .list items => secretsNonEmptyStrList items
  | _ => True

/-- `secretsNonEmptyStr` on the entries of a mapping. -/
def secretsNonEmptyStrDict : List (String × Value) → Prop
  | [] => True
  | (k, v) :: rest =>
    (k ∈ SECRET_FIELDS → ∃ s, v = .str s ∧ s ≠ "") ∧
    secretsNonEmptyStr v ∧ secretsNonEmptyStrDict rest

/-- `secretsNonEmptyStr` on the items of a sequence. -/
def secretsNonEmptyStrList : List Value → Prop
  | [] => True
  | v :: rest => secretsNonEmptyStr v ∧ secretsNonEmptyStrList rest

end

mutual

/-- Every mapping of the tree binds each key at most once (true of
every tree arising from a Python dict, where keys are unique). -/
def wfKeys : Value → Prop
  | .dict entries => (entries.map Prod.fst).Nodup ∧ wfKeysDict entries
  | .list items => wfKeysList items
  | _ => True

/-- `wfKeys` on the entries of a mapping. -/
def wfKeysDict : List (String × Value) → Prop
  | [] => True
  | (_, v) :: rest => wfKeys v ∧ wfKeysDict rest

/-- `wfKeys` on the items of a sequence. -/
def wfKeysList : List Value → Prop
  | [] => True
  | v :: rest => wfKeys v ∧ wfKeysList rest

end

mutual

/-- The tree contains no entry `mask_secrets` would rewrite: no
mapping entry anywhere whose key is a secret field and whose value is
a non-empty string. -/
def noMaskable : Value → Prop
  | .dict entries => noMaskableDict entries
  | .list items => noMaskableList items
  | _ => True

/-- `noMaskable` on the entries of a mapping. -/
def noMaskableDict : List (String × Value) → Prop
  | [] => True
  | (k, v) :: rest =>
    ¬(k ∈ SECRET_FIELDS ∧ ∃ s, v = .str s ∧ s ≠ "") ∧ noMaskable v ∧ noMaskableDict rest

/-- `noMaskable` on the items of a sequence. -/
def noMaskableList : List Value → Prop
  | [] => True
  | v :: rest => noMaskable v ∧ noMaskableList rest

end

mutual

/-- No maskable secret entry occurs inside any sequence of the tree
(`merge_secrets` takes submitted sequences verbatim, so a secret
masked inside a sequence would not be restored). -/
def seqMaskFree : Value → Prop
  | .dict entries => seqMaskFreeDict entries
  | .list items => noMaskableList items
  | _ => True

/-- `seqMaskFree` on the entries of a mapping. -/
def seqMaskFreeDict : List (String × Value) → Prop
  | [] => True
  | (_, v) :: rest => seqMaskFree v ∧ seqMaskFreeDict rest

end

/-! ## Log ring (C4) -/

theorem ringAppend_preserves_cap (buf : List String) (line : String)
    (h : buf.length ≤ LOG_MAXLEN) : (ringAppend buf line).length ≤ LOG_MAXLEN := by
  simp only [LOG_MAXLEN] at h ⊢
  by_cases h1 : buf.length < 500
  · simp only [ringAppend, LOG_MAXLEN, if_pos h1, List.length_append, List.length_cons,
      List.length_nil]
    omega
  · simp only [ringAppend, LOG_MAXLEN, if_neg h1, List.length_append, List.length_drop,
      List.length_cons, List.length_nil]
    omega

theorem ringAppend_foldl (lines : List String) : ∀ buf : List String,
    buf.length ≤ LOG_MAXLEN →
    List.foldl ringAppend buf lines =
      (buf ++ lines).drop (buf.length + lines.length - LOG_MAXLEN) := by
  induction lines with
  | nil =>
    intro buf h
    simp only [List.foldl_nil, List.append_nil, List.length_nil, Nat.add_zero]
    rw [Nat.sub_eq_zero_of_le h, List.drop_zero]
  | cons l rest ih =>
    intro buf h
    simp only [LOG_MAXLEN] at h ⊢
    simp only [List.foldl_cons]
    by_cases h1 : buf.length < 500
    · have e : ringAppend buf l = buf ++ [l] := by
        simp only [ringAppend, LOG_MAXLEN, if_pos h1]
      rw [e, ih (buf ++ [l]) (by
        simp only [LOG_MAXLEN, List.length_append, List.length_cons, List.length_nil]
        omega)]
      simp only [LOG_MAXLEN]
      have e2 : (buf ++ [l]) ++ rest = buf ++ l :: rest := by simp
      rw [e2]
      congr 1
      simp only [List.length_append, List.length_cons, List.length_nil]
      omega
    · have hlen : buf.length = 500 := by omega
      have e : ringAppend buf l = buf.drop 1 ++ [l] := by
        simp only [ringAppend, LOG_MAXLEN, if_neg h1]
      cases buf with
      | nil => simp at hlen
      | cons b0 btail =>
        have hb : btail.length + 1 = 500 := by simpa using hlen
        rw [e, ih (List.drop 1 (b0 :: btail) ++ [l]) (by
          simp only [LOG_MAXLEN, List.drop_succ_cons, List.drop_zero, List.length_append,
            List.length_cons, List.length_nil]
          omega)]
        simp only [LOG_MAXLEN, List.drop_succ_cons, List.drop_zero]
        have e3 : (btail ++ [l]) ++ rest = btail ++ l :: rest := by simp
        rw [e3]
        have e4 : (b0 :: btail) ++ l :: rest = b0 :: (btail ++ l :: rest) := by simp
        rw [e4]
        have e6 : (b0 :: btail).length + (l :: rest).length - 500 = rest.length + 1 := by
          simp only [List.length_cons]
          omega
        rw [e6, List.drop_succ_cons]
        congr 1
        simp only [List.length_append, List.length_cons, List.length_nil]
        omega

/-- C4: appending `500 + k` lines to the (capacity-500) log ring from
empty leaves exactly the last 500 appended lines in insertion order;
an append never grows the buffer past 500 lines; and an append to a
full buffer evicts exactly the oldest line (FIFO). -/
theorem logRing_capacity_fifo :
    (∀ (k : Nat) (lines : List String), lines.length = LOG_MAXLEN + k →
        List.foldl ringAppend [] lines = lines.drop k) ∧
    (∀ (buf : List String) (line : String), buf.length ≤ LOG_MAXLEN →
        (ringAppend buf line).length ≤ LOG_MAXLEN) ∧
    (∀ (buf : List String) (line : String), buf.length = LOG_MAXLEN →
        ringAppend buf line = buf.drop 1 ++ [line]) := by
  refine ⟨fun k lines hlen => ?_, ringAppend_preserves_cap, fun buf line hlen => ?_⟩
  · rw [ringAppend_foldl lines [] (by simp [LOG_MAXLEN])]
    simp only [List.nil_append, List.length_nil, Nat.zero_add, hlen, LOG_MAXLEN]
    congr 1
    omega
  · simp [ringAppend, hlen]

/-- Witness for C4 at concrete inputs: 501 appended lines leave the
last 500; the empty buffer stays within capacity; a full buffer of
500 lines evicts its head. -/
theorem logRing_capacity_fifo_witness :
    ((List.replicate (LOG_MAXLEN + 1) "a").length = LOG_MAXLEN + 1 ∧
      List.foldl ringAppend [] (List.replicate (LOG_MAXLEN + 1) "a") =
        (List.replicate (LOG_MAXLEN + 1) "a").drop 1) ∧
    (([] : List String).length ≤ LOG_MAXLEN ∧
      (ringAppend [] "x").length ≤ LOG_MAXLEN) ∧
    ((List.replicate LOG_MAXLEN "a").length = LOG_MAXLEN ∧
      ringAppend (List.replicate LOG_MAXLEN "a") "x" =
        (List.replicate LOG_MAXLEN "a").drop 1 ++ ["x"]) :=
  ⟨⟨by simp, logRing_capacity_fifo.1 1 _ (by simp)⟩,
   ⟨by simp, logRing_capacity_fifo.2.1 [] "x" (by simp)⟩,
   ⟨by simp, logRing_capacity_fifo.2.2 _ "x" (by simp)⟩⟩

/-! ## Process supervisor (C7, C8) -/

/-- C7: when a live process handle exists (return code unset),
`start()` changes nothing and spawns nothing; consequently two
consecutive `start()` calls without an intervening `stop()` spawn
exactly one process — the second call is a no-op. -/
theorem start_idempotent_while_alive :
    (∀ (g : GatewayManager) (res : SpawnResult) (now : Nat),
        procAlive g.process = true → g.start res now = (g, 0)) ∧
    (∀ (g : GatewayManager) (pid now : Nat) (res2 : SpawnResult) (now2 : Nat),
        procAlive g.process = false →
        (g.start (.ok pid) now).2 = 1 ∧
        ((g.start (.ok pid) now).1).start res2 now2 = ((g.start (.ok pid) now).1, 0)) := by
  constructor
  · intro g res now h
    simp [GatewayManager.start, h]
  · intro g pid now res2 now2 h
    have e1 : g.start (.ok pid) now =
        ({ g with process := some ⟨pid, none⟩, state := "running",
                  start_time := some now }, 1) := by
      simp [GatewayManager.start, h]
    rw [e1]
    exact ⟨rfl, by simp [GatewayManager.start, procAlive]⟩

/-- Witness for C7: a manager with a live pid-42 handle is untouched
by `start`; a stopped manager spawns once and the follow-up `start`
is a no-op. -/
theorem start_idempotent_while_alive_witness :
    (procAlive (GatewayManager.mk (some ⟨42, none⟩) "running" [] (some 0) 0).process = true ∧
      (GatewayManager.mk (some ⟨42, none⟩) "running" [] (some 0) 0).start (.ok 43) 5 =
        (GatewayManager.mk (some ⟨42, none⟩) "running" [] (some 0) 0, 0)) ∧
    (procAlive (GatewayManager.mk none "stopped" [] none 0).process = false ∧
      ((GatewayManager.mk none "stopped" [] none 0).start (.ok 7) 1).2 = 1 ∧
      (((GatewayManager.mk none "stopped" [] none 0).start (.ok 7) 1).1).start (.ok 8) 2 =
        (((GatewayManager.mk none "stopped" [] none 0).start (.ok 7) 1).1, 0)) :=
  ⟨⟨by decide, (start_idempotent_while_alive.1 _ (.ok 43) 5 (by decide))⟩,
   ⟨by decide, (start_idempotent_while_alive.2 _ 7 1 (.ok 8) 2 (by decide))⟩⟩

theorem stop_kills_process (g : GatewayManager) (exitCode : Int) :
    procAlive (g.stop exitCode).process = false := by
  unfold GatewayManager.stop
  split
  · cases hp : g.process with
    | none => simp [procAlive, hp]
    | some h => simp [procAlive, hp]
  · next h =>
    simpa [procAlive] using h

/-- C8: from any prior supervisor state, one completed `restart()`
call increments `restart_count` by exactly one, and because the
`stop()` preceding the `start()` leaves no live process, the
`start()` of a restart always actually spawns (exactly one process
when the spawn succeeds) rather than hitting the alive no-op path. -/
theorem restart_increments_count (g : GatewayManager) (exitCode : Int) (res : SpawnResult)
    (now pid : Nat) :
    ((g.restart exitCode res now).1.restart_count = g.restart_count + 1) ∧
    ((g.restart exitCode (.ok pid) now).2 = 1) := by
  have hdead := stop_kills_process g exitCode
  have hcount : (g.stop exitCode).restart_count = g.restart_count := by
    unfold GatewayManager.stop
    split <;> rfl
  constructor
  · simp only [GatewayManager.restart, GatewayManager.start, hdead, Bool.false_eq_true, if_false]
    cases res <;> simp [hcount]
  · simp only [GatewayManager.restart, GatewayManager.start, hdead, Bool.false_eq_true, if_false]

/-! ## Masking (C5, C6, C9) -/

theorem maskDict_cons (k : String) (v : Value) (rest : List (String × Value)) :
    maskDict ((k, v) :: rest) = (k, maskEntry k v) :: maskDict rest := by
  cases v <;> rfl

theorem maskEntry_str (k s : String) :
    maskEntry k (.str s) =
      if k ∈ SECRET_FIELDS ∧ s ≠ "" then
        .str (if 8 < s.length then pyTake s 8 ++ "***" else "***")
      else .str s := rfl

/-- The displayed form of a masked secret is a non-empty string and a
fixed point of the masking rule. -/
theorem maskStr_fixed (s : String) :
    (if 8 < s.length then pyTake s 8 ++ "***" else "***") ≠ "" ∧
    (if 8 < (if 8 < s.length then pyTake s 8 ++ "***" else "***").length then
        pyTake (if 8 < s.length then pyTake s 8 ++ "***" else "***") 8 ++ "***"
      else "***") = (if 8 < s.length then pyTake s 8 ++ "***" else "***") := by
  by_cases h : 8 < s.length
  · simp only [if_pos h]
    have h' : 8 < s.data.length := h
    have hdata : (pyTake s 8 ++ "***").data = s.data.take 8 ++ "***".data :=
      String.data_append _ _
    have htl : (s.data.take 8).length = 8 := by
      rw [List.length_take]
      omega
    have hlen : (pyTake s 8 ++ "***").length = 11 := by
      show (pyTake s 8 ++ "***").data.length = 11
      rw [hdata, List.length_append, htl]
      rfl
    have hne : (pyTake s 8 ++ "***") ≠ "" := by
      intro hemp
      rw [String.ext_iff, hdata] at hemp
      simpa using congrArg List.length hemp
    have htake : pyTake (pyTake s 8 ++ "***") 8 = pyTake s 8 := by
      rw [String.ext_iff]
      show (pyTake s 8 ++ "***").data.take 8 = s.data.take 8
      rw [hdata]
      exact List.take_left' htl
    refine ⟨hne, ?_⟩
    rw [if_pos (show 8 < (pyTake s 8 ++ "***").length by rw [hlen]; omega), htake]
  · simp only [if_neg h]
    refine ⟨by decide, ?_⟩
    rw [if_neg (by decide)]

theorem maskEntry_idem (k : String) (v : Value)
    (ih : mask_secrets (mask_secrets v) = mask_secrets v) :
    maskEntry k (maskEntry k v) = maskEntry k v := by
  cases v with
  | str s =>
    by_cases hc : k ∈ SECRET_FIELDS ∧ s ≠ ""
    · rw [maskEntry_str, if_pos hc, maskEntry_str,
        if_pos (show k ∈ SECRET_FIELDS ∧
          (if 8 < s.length then pyTake s 8 ++ "***" else "***") ≠ ""
          from ⟨hc.1, (maskStr_fixed s).1⟩),
        (maskStr_fixed s).2]
    · rw [maskEntry_str, if_neg hc, maskEntry_str, if_neg hc]
  | int n => rfl
  | bool b => rfl
  | null => rfl
  | list items =>
    show mask_secrets (mask_secrets (.list items)) = mask_secrets (.list items)
    exact ih
  | dict entries =>
    show mask_secrets (mask_secrets (.dict entries)) = mask_secrets (.dict entries)
    exact ih

/-- C9: masking is idempotent — `mask_secrets (mask_secrets T) =
mask_secrets T` for every configuration tree `T`: a displayed
(already masked) secret value is a fixed point of the masking rule,
so re-masking a displayed tree changes nothing. -/
theorem mask_secrets_idempotent (v : Value) :
    mask_secrets (mask_secrets v) = mask_secrets v := by
  refine @Value.rec
    (fun v => mask_secrets (mask_secrets v) = mask_secrets v)
    (fun l => maskList (maskList l) = maskList l)
    (fun l => maskDict (maskDict l) = maskDict l)
    (fun kv => mask_secrets (mask_secrets kv.2) = mask_secrets kv.2)
    (fun _ => rfl) (fun _ => rfl) (fun _ => rfl) rfl
    (fun items ihl => ?_) (fun entries ihd => ?_) rfl
    (fun w tail ihw ihtail => ?_) rfl
    (fun head tail ih4 ihtail => ?_) (fun k v ih => ih) v
  · show Value.list (maskList (maskList items)) = Value.list (maskList items)
    rw [ihl]
  · show Value.dict (maskDict (maskDict entries)) = Value.dict (maskDict entries)
    rw [ihd]
  · show mask_secrets (mask_secrets w) :: maskList (maskList tail) =
      mask_secrets w :: maskList tail
    rw [ihw, ihtail]
  · obtain ⟨k, v⟩ := head
    rw [maskDict_cons k v tail, maskDict_cons k (maskEntry k v) (maskDict tail),
      maskEntry_idem k v ih4, ihtail]

/-- C6: a secret-field entry holding a non-empty string `s` is
displayed as the first 8 characters of `s` followed by the `"***"`
marker when `s` is longer than 8 characters, and as the pure marker
otherwise; every character of the displayed value comes from the first
8 characters of `s` or is the marker character. -/
theorem mask_secret_display (k s : String) (rest : List (String × Value))
    (hk : k ∈ SECRET_FIELDS) (hs : s ≠ "") :
    mask_secrets (.dict ((k, .str s) :: rest)) =
      .dict ((k, .str (if 8 < s.length then pyTake s 8 ++ "***" else "***")) :: maskDict rest) ∧
    ∀ c ∈ (if 8 < s.length then pyTake s 8 ++ "***" else "***").data,
      c ∈ (pyTake s 8).data ∨ c = '*' := by
  constructor
  · show Value.dict (maskDict ((k, .str s) :: rest)) =
      Value.dict ((k, .str (if 8 < s.length then pyTake s 8 ++ "***" else "***")) :: maskDict rest)
    rw [maskDict_cons, maskEntry_str, if_pos (show k ∈ SECRET_FIELDS ∧ s ≠ "" from ⟨hk, hs⟩)]
  · intro c hc
    by_cases h : 8 < s.length
    · rw [if_pos h, String.data_append] at hc
      rcases List.mem_append.mp hc with h1 | h1
      · exact Or.inl h1
      · right
        rw [show ("***" : String).data = ['*', '*', '*'] from rfl] at h1
        simp only [List.mem_cons, List.not_mem_nil, or_false] at h1
        rcases h1 with h1 | h1 | h1 <;> exact h1
    · rw [if_neg h] at hc
      right
      rw [show ("***" : String).data = ['*', '*', '*'] from rfl] at hc
      simp only [List.mem_cons, List.not_mem_nil, or_false] at hc
      rcases hc with hc | hc | hc <;> exact hc

/-- Witness for C6 at a concrete secret: `"secretvalue123"` under
`"api_key"` is displayed as `"secretva***"`. -/
theorem mask_secret_display_witness :
    ("api_key" ∈ SECRET_FIELDS ∧ ("secretvalue123" : String) ≠ "") ∧
    mask_secrets (.dict [("api_key", .str "secretvalue123")]) =
      .dict [("api_key", .str (if 8 < ("secretvalue123" : String).length then
          pyTake "secretvalue123" 8 ++ "***" else "***"))] :=
  ⟨⟨by decide, by decide⟩,
   (mask_secret_display "api_key" "secretvalue123" [] (by decide) (by decide)).1⟩

/-- Counterexample to C5: `SECRET_FIELDS` matching is exact and
case-sensitive, so the keys `"API_KEY"` and `"ApiKey"` are NOT masked
(their trees are returned unchanged), while `"api_key"` is. -/
theorem mask_key_matching_counterexample :
    mask_secrets (.dict [("API_KEY", .str "secretvalue123")]) =
      .dict [("API_KEY", .str "secretvalue123")] ∧
    mask_secrets (.dict [("ApiKey", .str "secretvalue123")]) =
      .dict [("ApiKey", .str "secretvalue123")] ∧
    mask_secrets (.dict [("api_key", .str "secretvalue123")]) =
      .dict [("api_key", .str "secretva***")] := by
  decide

/-- C5 amended: a mapping key is treated as a secret field exactly
when it is, verbatim and case-sensitively, one of the nine names of
`SECRET_FIELDS` (each secret in its snake_case and camelCase
spellings); in particular `"API_KEY"` and `"ApiKey"` are not secret
fields while `"api_key"` and `"apiKey"` are. -/
theorem mask_key_matching_exact (k s : String) (hs : s ≠ "") :
    (mask_secrets (.dict [(k, .str s)]) =
      .dict [(k, if k ∈ SECRET_FIELDS then
                   .str (if 8 < s.length then pyTake s 8 ++ "***" else "***")
                 else .str s)]) ∧
    "API_KEY" ∉ SECRET_FIELDS ∧ "ApiKey" ∉ SECRET_FIELDS ∧
    "api_key" ∈ SECRET_FIELDS ∧ "apiKey" ∈ SECRET_FIELDS := by
  refine ⟨?_, by decide, by decide, by decide, by decide⟩
  show Value.dict (maskDict [(k, .str s)]) = _
  rw [maskDict_cons, maskEntry_str]
  by_cases hk : k ∈ SECRET_FIELDS
  · rw [if_pos (show k ∈ SECRET_FIELDS ∧ s ≠ "" from ⟨hk, hs⟩), if_pos hk]
    rfl
  · rw [if_neg (show ¬(k ∈ SECRET_FIELDS ∧ s ≠ "") from fun hx => hk hx.1), if_neg hk]
    rfl

/-- Witness for the amended C5 at concrete keys: `"token"` is masked
(short value, pure marker), and the non-secret key `"name"` is left
alone. -/
theorem mask_key_matching_exact_witness :
    (("abc" : String) ≠ "" ∧
      mask_secrets (.dict [("token", .str "abc")]) =
        .dict [("token", if "token" ∈ SECRET_FIELDS then
                  .str (if 8 < ("abc" : String).length then pyTake "abc" 8 ++ "***" else "***")
                else .str "abc")]) ∧
    (("bob" : String) ≠ "" ∧
      mask_secrets (.dict [("name", .str "bob")]) =
        .dict [("name", if "name" ∈ SECRET_FIELDS then
                  .str (if 8 < ("bob" : String).length then pyTake "bob" 8 ++ "***" else "***")
                else .str "bob")]) :=
  ⟨⟨by decide, (mask_key_matching_exact "token" "abc" (by decide)).1⟩,
   ⟨by decide, (mask_key_matching_exact "name" "bob" (by decide)).1⟩⟩

/-! ## Secret merge (C3, C10) -/

theorem mergeDict_cons (k : String) (v : Value) (rest existing : List (String × Value)) :
    mergeDict ((k, v) :: rest) existing =
      (k, mergeEntry k v existing) :: mergeDict rest existing := by
  cases v <;> rfl

theorem mergeEntry_str (k s : String) (existing : List (String × Value)) :
    mergeEntry k (.str s) existing =
      if k ∈ SECRET_FIELDS ∧ (pyEndsWith s "***" ∨ s = "") then
        (dGet existing k).getD (.str "")
      else .str s := rfl

theorem dGet_eq_of_nodup (l : List (String × Value)) (k : String) (v : Value)
    (hnd : (l.map Prod.fst).Nodup) (hmem : (k, v) ∈ l) : dGet l k = some v := by
  induction l with
  | nil => cases hmem
  | cons head tail ih =>
    obtain ⟨k0, v0⟩ := head
    simp only [List.map_cons, List.nodup_cons] at hnd
    rcases List.mem_cons.mp hmem with heq | hmem'
    · cases heq
      simp [dGet]
    · have hk : ¬(k0 = k) := by
        intro h
        subst h
        exact hnd.1 (List.mem_map.mpr ⟨(k0, v), hmem', rfl⟩)
      simp only [dGet, if_neg hk]
      exact ih hnd.2 hmem'

theorem dGet_mergeDict (newData existing : List (String × Value)) (k : String) (v : Value)
    (hmem : (k, v) ∈ newData) (hnd : (newData.map Prod.fst).Nodup) :
    dGet (mergeDict newData existing) k = some (mergeEntry k v existing) := by
  induction newData with
  | nil => cases hmem
  | cons head tail ih =>
    obtain ⟨k0, v0⟩ := head
    simp only [List.map_cons, List.nodup_cons] at hnd
    rw [mergeDict_cons]
    rcases List.mem_cons.mp hmem with heq | hmem'
    · cases heq
      simp [dGet]
    · have hk : ¬(k0 = k) := by
        intro h
        subst h
        exact hnd.1 (List.mem_map.mpr ⟨(k0, v), hmem', rfl⟩)
      simp only [dGet, if_neg hk]
      exact ih hmem' hnd.2

theorem mergeEntry_not_secret (k : String) (v : Value) (existing : List (String × Value))
    (hk : k ∉ SECRET_FIELDS) :
    mergeEntry k v existing = merge_secrets v ((dGet existing k).getD (.dict [])) := by
  cases v with
  | str s =>
    rw [mergeEntry_str, if_neg (show ¬(k ∈ SECRET_FIELDS ∧ (pyEndsWith s "***" ∨ s = ""))
      from fun hx => hk hx.1)]
    rfl
  | int n => rfl
  | bool b => rfl
  | null => rfl
  | list items => rfl
  | dict entries => rfl

/-- C3: for any pair of mappings (submitted, previous) and any entry
`(k, v)` of the submitted mapping — a secret entry whose submitted
string is empty or ends with the `"***"` marker takes the value of `k`
in `previous` (empty string when absent); a secret entry with any
other string keeps the submitted string; a non-secret entry recurses
entry-wise with the empty mapping as fallback previous subtree. Any
non-mapping submitted value is returned verbatim by the merge. -/
theorem merge_secrets_entrywise :
    (∀ (newData existing : List (String × Value)) (k : String) (v : Value),
      (k, v) ∈ newData → (newData.map Prod.fst).Nodup →
      ∃ res, merge_secrets (.dict newData) (.dict existing) = Value.dict res ∧
        ((∀ s : String, v = .str s → k ∈ SECRET_FIELDS → (pyEndsWith s "***" ∨ s = "") →
            dGet res k = some ((dGet existing k).getD (.str ""))) ∧
         (∀ s : String, v = .str s → k ∈ SECRET_FIELDS → ¬(pyEndsWith s "***" ∨ s = "") →
            dGet res k = some (.str s)) ∧
         (k ∉ SECRET_FIELDS →
            dGet res k = some (merge_secrets v ((dGet existing k).getD (.dict [])))))) ∧
    (∀ (v p : Value), (∀ l, v ≠ .dict l) → merge_secrets v p = v) := by
  constructor
  · intro newData existing k v hmem hnd
    refine ⟨mergeDict newData existing, rfl, ?_, ?_, ?_⟩
    · rintro s rfl hk hmask
      rw [dGet_mergeDict newData existing k (.str s) hmem hnd, mergeEntry_str,
        if_pos (show k ∈ SECRET_FIELDS ∧ (pyEndsWith s "***" ∨ s = "") from ⟨hk, hmask⟩)]
    · rintro s rfl hk hmask
      rw [dGet_mergeDict newData existing k (.str s) hmem hnd, mergeEntry_str,
        if_neg (show ¬(k ∈ SECRET_FIELDS ∧ (pyEndsWith s "***" ∨ s = ""))
          from fun hx => hmask hx.2)]
    · intro hk
      rw [dGet_mergeDict newData existing k v hmem hnd, mergeEntry_not_secret k v existing hk]
  · intro v p h
    cases v with
    | str s => rfl
    | int n => rfl
    | bool b => rfl
    | null => rfl
    | list items => rfl
    | dict entries => exact absurd rfl (h entries)

/-- Witness for C3: the spec's own example — previous
`{"apiKey": "sk-abcdefgh12345"}` with submitted `{"apiKey":
"sk-abcdef***"}` restores the stored secret, and a non-mapping
submitted value is returned verbatim. -/
theorem merge_secrets_entrywise_witness :
    ((("apiKey", Value.str "sk-abcdef***") ∈
        ([("apiKey", Value.str "sk-abcdef***")] : List (String × Value))) ∧
      (([("apiKey", Value.str "sk-abcdef***")] : List (String × Value)).map Prod.fst).Nodup) ∧
    (∃ res, merge_secrets (.dict [("apiKey", Value.str "sk-abcdef***")])
        (.dict [("apiKey", Value.str "sk-abcdefgh12345")]) = Value.dict res ∧
      ((∀ s : String, Value.str "sk-abcdef***" = .str s → "apiKey" ∈ SECRET_FIELDS →
          (pyEndsWith s "***" ∨ s = "") →
          dGet res "apiKey" =
            some ((dGet [("apiKey", Value.str "sk-abcdefgh12345")] "apiKey").getD (.str ""))) ∧
       (∀ s : String, Value.str "sk-abcdef***" = .str s → "apiKey" ∈ SECRET_FIELDS →
          ¬(pyEndsWith s "***" ∨ s = "") → dGet res "apiKey" = some (.str s)) ∧
       ("apiKey" ∉ SECRET_FIELDS →
          dGet res "apiKey" = some (merge_secrets (Value.str "sk-abcdef***")
            ((dGet [("apiKey", Value.str "sk-abcdefgh12345")] "apiKey").getD (.dict [])))))) ∧
    merge_secrets (.str "plain") (.dict []) = .str "plain" :=
  ⟨⟨by decide, by decide⟩,
   merge_secrets_entrywise.1 [("apiKey", Value.str "sk-abcdef***")]
     [("apiKey", Value.str "sk-abcdefgh12345")] "apiKey" (Value.str "sk-abcdef***")
     (by decide) (by decide),
   merge_secrets_entrywise.2 (.str "plain") (.dict []) (fun _ h => nomatch h)⟩

theorem mergeDict_keys (newData existing : List (String × Value)) :
    (mergeDict newData existing).map Prod.fst = newData.map Prod.fst := by
  induction newData with
  | nil => rfl
  | cons head tail ih =>
    obtain ⟨k, v⟩ := head
    rw [mergeDict_cons]
    simp only [List.map_cons, ih]

theorem dGet_eq_none (l : List (String × Value)) (k : String)
    (h : k ∉ l.map Prod.fst) : dGet l k = none := by
  induction l with
  | nil => rfl
  | cons head tail ih =>
    obtain ⟨k0, v0⟩ := head
    simp only [List.map_cons, List.mem_cons] at h
    push_neg at h
    have hne : ¬(k0 = k) := fun he => h.1 he.symm
    simp only [dGet, if_neg hne]
    exact ih h.2

/-- C10: at every mapping level the merged result has exactly the key
set (and key order) of the submitted mapping; a key present only in
`previous` never appears in the result, so omitting a key in the
submitted edit deletes it even when `previous` held a value for it. -/
theorem merge_keys_from_submitted (newData existing : List (String × Value)) (k : String)
    (hk : k ∉ newData.map Prod.fst) :
    merge_secrets (.dict newData) (.dict existing) = Value.dict (mergeDict newData existing) ∧
    (mergeDict newData existing).map Prod.fst = newData.map Prod.fst ∧
    dGet (mergeDict newData existing) k = none :=
  ⟨rfl, mergeDict_keys newData existing, by
    refine dGet_eq_none _ k ?_
    rw [mergeDict_keys]
    exact hk⟩

/-- Witness for C10: submitting `{"a": 1}` against a previous config
that held `{"apiKey": ...}` drops the `apiKey` entry entirely. -/
theorem merge_keys_from_submitted_witness :
    ("apiKey" ∉ ([("a", Value.int 1)] : List (String × Value)).map Prod.fst) ∧
    (merge_secrets (.dict [("a", Value.int 1)])
        (.dict [("apiKey", Value.str "sk-abcdefgh12345")]) =
      Value.dict (mergeDict [("a", Value.int 1)] [("apiKey", Value.str "sk-abcdefgh12345")]) ∧
    (mergeDict [("a", Value.int 1)] [("apiKey", Value.str "sk-abcdefgh12345")]).map Prod.fst =
      ([("a", Value.int 1)] : List (String × Value)).map Prod.fst ∧
    dGet (mergeDict [("a", Value.int 1)] [("apiKey", Value.str "sk-abcdefgh12345")]) "apiKey" =
      none) :=
  ⟨by decide, merge_keys_from_submitted [("a", Value.int 1)]
    [("apiKey", Value.str "sk-abcdefgh12345")] "apiKey" (by decide)⟩

/-! ## Masking round-trip (C1) -/

/-- On a tree with no maskable secret entry, `mask_secrets` is the
identity. -/
theorem mask_id_of_noMaskable (v : Value) (h : noMaskable v) : mask_secrets v = v := by
  refine @Value.rec
    (fun v => noMaskable v → mask_secrets v = v)
    (fun l => noMaskableList l → maskList l = l)
    (fun l => noMaskableDict l → maskDict l = l)
    (fun kv => noMaskable kv.2 → mask_secrets kv.2 = kv.2)
    (fun _ _ => rfl) (fun _ _ => rfl) (fun _ _ => rfl) (fun _ => rfl)
    (fun items ihl hl => ?_) (fun entries ihd hd => ?_)
    (fun _ => rfl) (fun w tail ihw ihtail hh => ?_)
    (fun _ => rfl) (fun head tail ih4 ihtail hh => ?_)
    (fun _ _ ih => ih) v h
  · show Value.list (maskList items) = Value.list items
    rw [ihl hl]
  · show Value.dict (maskDict entries) = Value.dict entries
    rw [ihd hd]
  · show mask_secrets w :: maskList tail = w :: tail
    rw [ihw hh.1, ihtail hh.2]
  · obtain ⟨k, v⟩ := head
    obtain ⟨h1, h2, h3⟩ := hh
    rw [maskDict_cons, ihtail h3]
    have he : maskEntry k v = v := by
      cases v with
      | str s =>
        rw [maskEntry_str,
          if_neg (show ¬(k ∈ SECRET_FIELDS ∧ s ≠ "") from
            fun hx => h1 ⟨hx.1, s, rfl, hx.2⟩)]
      | int n => rfl
      | bool b => rfl
      | null => rfl
      | list items =>
        show mask_secrets (.list items) = Value.list items
        exact ih4 h2
      | dict entries' =>
        show mask_secrets (.dict entries') = Value.dict entries'
        exact ih4 h2
    rw [he]

theorem maskList_id_of_noMaskableList (l : List Value) (h : noMaskableList l) :
    maskList l = l := by
  induction l with
  | nil => rfl
  | cons v rest ih =>
    show mask_secrets v :: maskList rest = v :: rest
    rw [mask_id_of_noMaskable v h.1, ih h.2]

/-- `pyEndsWith`: every displayed secret value ends with the mask
marker. -/
theorem maskStr_endsWith (s : String) :
    pyEndsWith (if 8 < s.length then pyTake s 8 ++ "***" else "***") "***" := by
  by_cases h : 8 < s.length
  · rw [if_pos h]
    show ("***" : String).data <:+ (pyTake s 8 ++ "***").data
    rw [String.data_append]
    exact List.suffix_append _ _
  · rw [if_neg h]
    exact List.suffix_refl _

/-- C1 amended: `merge_secrets (mask_secrets T) T = T` holds for every
tree `T` whose mappings bind each key once, whose secret-field entries
all hold non-empty strings, and in which no maskable secret entry
occurs inside a sequence. (The claim as stated, which also covers
secrets inside sequences of mappings, is refuted by
`merge_mask_roundtrip_counterexample`: `merge_secrets` takes submitted
non-mapping values — in particular sequences — verbatim, so a secret
masked inside a sequence is not restored.) -/
theorem merge_mask_roundtrip (v : Value)
    (hwf : wfKeys v) (hne : secretsNonEmptyStr v) (hsf : seqMaskFree v) :
    merge_secrets (mask_secrets v) v = v := by
  refine @Value.rec
    (fun v => wfKeys v → secretsNonEmptyStr v → seqMaskFree v →
      merge_secrets (mask_secrets v) v = v)
    (fun _ => True)
    (fun l => ∀ existing, wfKeysDict l → secretsNonEmptyStrDict l → seqMaskFreeDict l →
      (∀ kv ∈ l, dGet existing kv.1 = some kv.2) →
      mergeDict (maskDict l) existing = l)
    (fun kv => wfKeys kv.2 → secretsNonEmptyStr kv.2 → seqMaskFree kv.2 →
      merge_secrets (mask_secrets kv.2) kv.2 = kv.2)
    (fun _ _ _ _ => rfl) (fun _ _ _ _ => rfl) (fun _ _ _ _ => rfl) (fun _ _ _ => rfl)
    (fun items _ _ _ hsf2 => ?_) (fun entries ihd hwf2 hne2 hsf2 => ?_)
    trivial (fun _ _ _ _ => trivial)
    (fun existing _ _ _ _ => rfl) (fun head tail ih4 ihtail => ?_)
    (fun _ _ ih => ih) v hwf hne hsf
  · show Value.list (maskList items) = Value.list items
    rw [maskList_id_of_noMaskableList items hsf2]
  · show Value.dict (mergeDict (maskDict entries) entries) = Value.dict entries
    rw [ihd entries hwf2.2 hne2 hsf2
      (fun kv hkv => dGet_eq_of_nodup entries kv.1 kv.2 hwf2.1 hkv)]
  · intro existing hwf2 hne2 hsf2 hget
    obtain ⟨k, v⟩ := head
    rw [maskDict_cons, mergeDict_cons,
      ihtail existing hwf2.2 hne2.2.2 hsf2.2
        (fun kv hkv => hget kv (List.mem_cons_of_mem _ hkv))]
    have hgethead : dGet existing k = some v := hget (k, v) (List.mem_cons_self _ _)
    have he : mergeEntry k (maskEntry k v) existing = v := by
      by_cases hk : k ∈ SECRET_FIELDS
      · obtain ⟨s, rfl, hsne⟩ := hne2.1 hk
        rw [maskEntry_str, if_pos (show k ∈ SECRET_FIELDS ∧ s ≠ "" from ⟨hk, hsne⟩),
          mergeEntry_str,
          if_pos (show k ∈ SECRET_FIELDS ∧
            (pyEndsWith (if 8 < s.length then pyTake s 8 ++ "***" else "***") "***" ∨
              (if 8 < s.length then pyTake s 8 ++ "***" else "***") = "")
            from ⟨hk, Or.inl (maskStr_endsWith s)⟩),
          hgethead]
        rfl
      · cases v with
        | str s =>
          rw [maskEntry_str,
            if_neg (show ¬(k ∈ SECRET_FIELDS ∧ s ≠ "") from fun hx => hk hx.1),
            mergeEntry_str,
            if_neg (show ¬(k ∈ SECRET_FIELDS ∧ (pyEndsWith s "***" ∨ s = ""))
              from fun hx => hk hx.1)]
        | int n => rfl
        | bool b => rfl
        | null => rfl
        | list items =>
          show Value.list (maskList items) = Value.list items
          rw [maskList_id_of_noMaskableList items hsf2.1]
        | dict entries' =>
          show merge_secrets (.dict (maskDict entries'))
            ((dGet existing k).getD (.dict [])) = Value.dict entries'
          rw [hgethead]
          exact ih4 hwf2.1 hne2.2.1 hsf2.1
    rw [he]

/-- Counterexample to C1 as stated: a tree whose every secret-field
value is a non-empty string (with well-formed, duplicate-free
mappings), but whose secret sits inside a sequence of mappings — the
masked view is NOT merged back to the original, because
`merge_secrets` takes the submitted sequence verbatim. -/
theorem merge_mask_roundtrip_counterexample :
    wfKeys (Value.dict [("providers",
      .list [.dict [("api_key", .str "secretvalue123")]])]) ∧
    secretsNonEmptyStr (Value.dict [("providers",
      .list [.dict [("api_key", .str "secretvalue123")]])]) ∧
    merge_secrets
        (mask_secrets (Value.dict [("providers",
          .list [.dict [("api_key", .str "secretvalue123")]])]))
        (Value.dict [("providers", .list [.dict [("api_key", .str "secretvalue123")]])]) ≠
      Value.dict [("providers", .list [.dict [("api_key", .str "secretvalue123")]])] := by
  refine ⟨?_, ?_, by decide⟩
  · simp [wfKeys, wfKeysDict, wfKeysList, SECRET_FIELDS]
  · simp [secretsNonEmptyStr, secretsNonEmptyStrDict, secretsNonEmptyStrList, SECRET_FIELDS]

/-- Witness for the amended C1 at a concrete tree with a top-level
secret and a nested mapping holding another secret. -/
theorem merge_mask_roundtrip_witness :
    (wfKeys (Value.dict [("apiKey", .str "sk-abcdefgh12345"),
        ("channels", .dict [("enabled", .bool true), ("token", .str "tok12345678")])]) ∧
      secretsNonEmptyStr (Value.dict [("apiKey", .str "sk-abcdefgh12345"),
        ("channels", .dict [("enabled", .bool true), ("token", .str "tok12345678")])]) ∧
      seqMaskFree (Value.dict [("apiKey", .str "sk-abcdefgh12345"),
        ("channels", .dict [("enabled", .bool true), ("token", .str "tok12345678")])])) ∧
    merge_secrets
        (mask_secrets (Value.dict [("apiKey", .str "sk-abcdefgh12345"),
          ("channels", .dict [("enabled", .bool true), ("token", .str "tok12345678")])]))
        (Value.dict [("apiKey", .str "sk-abcdefgh12345"),
          ("channels", .dict [("enabled", .bool true), ("token", .str "tok12345678")])]) =
      Value.dict [("apiKey", .str "sk-abcdefgh12345"),
        ("channels", .dict [("enabled", .bool true), ("token", .str "tok12345678")])] := by
  have hwf : wfKeys (Value.dict [("apiKey", .str "sk-abcdefgh12345"),
      ("channels", .dict [("enabled", .bool true), ("token", .str "tok12345678")])]) := by
    simp [wfKeys, wfKeysDict, wfKeysList, SECRET_FIELDS]
  have hne : secretsNonEmptyStr (Value.dict [("apiKey", .str "sk-abcdefgh12345"),
      ("channels", .dict [("enabled", .bool true), ("token", .str "tok12345678")])]) := by
    simp [secretsNonEmptyStr, secretsNonEmptyStrDict, secretsNonEmptyStrList, SECRET_FIELDS]
  have hsf : seqMaskFree (Value.dict [("apiKey", .str "sk-abcdefgh12345"),
      ("channels", .dict [("enabled", .bool true), ("token", .str "tok12345678")])]) := by
    simp [seqMaskFree, seqMaskFreeDict, noMaskableList]
  exact ⟨⟨hwf, hne, hsf⟩, merge_mask_roundtrip _ hwf hne hsf⟩

/-! ## Validation-error redaction (C2) -/

/-- An occurrence of `s` in `t ++ R` whose characters are disjoint
from `t` lies entirely within `R`. -/
theorem infix_append_of_disjoint (s t R : List Char) (hs : s ≠ [])
    (hd : ∀ c ∈ s, c ∉ t) (h : s <:+: t ++ R) : s <:+: R := by
  obtain ⟨a, b, hab⟩ := h
  rw [List.append_assoc] at hab
  rcases List.append_eq_append_iff.mp hab with ⟨a', ha, hb⟩ | ⟨c', hc, hd2⟩
  · cases a' with
    | nil =>
      exact ⟨[], b, by simpa using hb⟩
    | cons a0 arest =>
      exfalso
      cases s with
      | nil => exact hs rfl
      | cons s0 srest =>
        have h0 : s0 = a0 := by
          have hh := congrArg (fun l => l.head?) hb
          simpa using hh
        have hmem : a0 ∈ t := by
          rw [ha]
          exact List.mem_append.mpr (Or.inr (List.mem_cons_self _ _))
        exact hd s0 (List.mem_cons_self _ _) (h0 ▸ hmem)
  · exact ⟨c', b, by rw [hd2, List.append_assoc]⟩

/-- A prefix of a replacement result whose characters are disjoint
from the replacement text is a prefix of the original. -/
theorem prefix_of_listReplaceFuel (t : List Char) (ht : t ≠ []) :
    ∀ (fuel : Nat) (s p xs : List Char), (∀ c ∈ p, c ∉ t) →
      p <+: listReplaceFuel fuel s t xs → p <+: xs := by
  intro fuel
  induction fuel with
  | zero =>
    intro s p xs _ h
    simpa [listReplaceFuel] using h
  | succ n ih =>
    intro s p xs hd h
    cases s with
    | nil => simpa [listReplaceFuel] using h
    | cons a s2 =>
      cases xs with
      | nil => simpa [listReplaceFuel] using h
      | cons x xs2 =>
        simp only [listReplaceFuel] at h
        by_cases hp : (a :: s2) <+: (x :: xs2)
        · rw [if_pos hp] at h
          cases p with
          | nil => exact List.nil_prefix
          | cons p0 ps =>
            exfalso
            cases t with
            | nil => exact ht rfl
            | cons t0 ts =>
              have h0 : p0 = t0 := (List.cons_prefix_cons.mp (by simpa using h)).1
              exact hd p0 (List.mem_cons_self _ _) (h0 ▸ List.mem_cons_self _ _)
        · rw [if_neg hp] at h
          cases p with
          | nil => exact List.nil_prefix
          | cons p0 ps =>
            obtain ⟨h0, hps⟩ := List.cons_prefix_cons.mp h
            exact List.cons_prefix_cons.mpr ⟨h0,
              ih (a :: s2) ps xs2 (fun c hc => hd c (List.mem_cons_of_mem _ hc)) hps⟩

/-- After greedily replacing every occurrence of a non-empty pattern
`s` (disjoint from the non-empty replacement `t`) the pattern no
longer occurs. -/
theorem not_infix_listReplaceFuel (s t : List Char) (hs : s ≠ []) (ht : t ≠ [])
    (hd : ∀ c ∈ s, c ∉ t) :
    ∀ (fuel : Nat) (xs : List Char), xs.length ≤ fuel →
      ¬ s <:+: listReplaceFuel fuel s t xs := by
  obtain ⟨a, s2, rfl⟩ : ∃ a s2, s = a :: s2 := by
    cases s with
    | nil => exact absurd rfl hs
    | cons a s2 => exact ⟨a, s2, rfl⟩
  intro fuel
  induction fuel with
  | zero =>
    intro xs hlen
    have hx : xs = [] := List.length_eq_zero.mp (Nat.le_zero.mp hlen)
    subst hx
    simp only [listReplaceFuel]
    intro h
    exact hs (List.eq_nil_of_infix_nil h)
  | succ n ih =>
    intro xs hlen
    cases xs with
    | nil =>
      simp only [listReplaceFuel]
      intro h
      exact hs (List.eq_nil_of_infix_nil h)
    | cons x xs2 =>
      simp only [listReplaceFuel]
      by_cases hp : (a :: s2) <+: (x :: xs2)
      · rw [if_pos hp]
        intro h
        have h2 := infix_append_of_disjoint (a :: s2) t _ hs hd h
        refine ih ((x :: xs2).drop (a :: s2).length) ?_ h2
        simp only [List.length_drop, List.length_cons] at hlen ⊢
        omega
      · rw [if_neg hp]
        intro h
        rcases List.infix_cons_iff.mp h with h1 | h1
        · obtain ⟨h0, hps⟩ := List.cons_prefix_cons.mp h1
          have hpre := prefix_of_listReplaceFuel t ht n (a :: s2) s2 xs2
            (fun c hc => hd c (List.mem_cons_of_mem _ hc)) hps
          exact hp (List.cons_prefix_cons.mpr ⟨h0, hpre⟩)
        · refine ih xs2 ?_ h1
          simp only [List.length_cons] at hlen
          omega

/-- Replacing occurrences of any pattern `s` by `t` cannot create an
occurrence of a string `v` that is disjoint from `t` and absent from
the original. -/
theorem listReplaceFuel_preserves_absence (t v : List Char) (hv : v ≠ []) (ht : t ≠ [])
    (hd : ∀ c ∈ v, c ∉ t) :
    ∀ (fuel : Nat) (s xs : List Char), ¬ v <:+: xs →
      ¬ v <:+: listReplaceFuel fuel s t xs := by
  intro fuel
  induction fuel with
  | zero =>
    intro s xs hxs
    simpa [listReplaceFuel] using hxs
  | succ n ih =>
    intro s xs hxs
    cases s with
    | nil => simpa [listReplaceFuel] using hxs
    | cons a s2 =>
      cases xs with
      | nil => simpa [listReplaceFuel] using hxs
      | cons x xs2 =>
        simp only [listReplaceFuel]
        by_cases hp : (a :: s2) <+: (x :: xs2)
        · rw [if_pos hp]
          intro h
          have h2 := infix_append_of_disjoint v t _ hv hd h
          refine ih (a :: s2) ((x :: xs2).drop (a :: s2).length) ?_ h2
          intro hcon
          exact hxs (hcon.trans (List.drop_suffix _ _).isInfix)
        · rw [if_neg hp]
          intro h
          rcases List.infix_cons_iff.mp h with h1 | h1
          · cases v with
            | nil => exact hv rfl
            | cons v0 vs =>
              obtain ⟨h0, hvs⟩ := List.cons_prefix_cons.mp h1
              have hvxs := prefix_of_listReplaceFuel t ht n (a :: s2) vs xs2
                (fun c hc => hd c (List.mem_cons_of_mem _ hc)) hvs
              exact hxs (List.cons_prefix_cons.mpr ⟨h0, hvxs⟩).isInfix
          · exact ih (a :: s2) xs2
              (fun hcon => hxs (hcon.trans (List.suffix_cons x xs2).isInfix)) h1

theorem redact_step_preserves_absence (v : String) (hv : v.data ≠ [])
    (hstar : ∀ c ∈ v.data, c ∉ ("***" : String).data) :
    ∀ (vals : List String) (e : String), ¬ v.data <:+: e.data →
      ¬ v.data <:+: (vals.foldl (fun em' val =>
        if val ≠ "" ∧ 3 < val.length then pyReplace em' val "***" else em') e).data := by
  intro vals
  induction vals with
  | nil => intro e h; exact h
  | cons w ws ih =>
    intro e h
    simp only [List.foldl_cons]
    apply ih
    by_cases hw : w ≠ "" ∧ 3 < w.length
    · rw [if_pos hw]
      exact listReplaceFuel_preserves_absence ("***" : String).data v.data hv (by decide)
        hstar e.data.length w.data e.data h
    · rw [if_neg hw]
      exact h

theorem redact_values_kill (v : String) (hlen : 3 < v.length)
    (hstar : ∀ c ∈ v.data, c ∉ ("***" : String).data) :
    ∀ (vals : List String) (e : String), v ∈ vals →
      ¬ v.data <:+: (vals.foldl (fun em' val =>
        if val ≠ "" ∧ 3 < val.length then pyReplace em' val "***" else em') e).data := by
  have hvd : v.data ≠ [] := by
    intro hnil
    have : v.data.length = 0 := by rw [hnil]; rfl
    have hl : v.length = v.data.length := rfl
    omega
  have hvne : v ≠ "" := by
    intro hq
    subst hq
    exact hvd rfl
  intro vals e hmem
  obtain ⟨l1, l2, rfl⟩ := List.append_of_mem hmem
  rw [List.foldl_append, List.foldl_cons, if_pos ⟨hvne, hlen⟩]
  apply redact_step_preserves_absence v hvd hstar l2
  exact not_infix_listReplaceFuel v.data ("***" : String).data hvd (by decide) hstar
    _ _ (le_refl _)

theorem redact_fields_preserve_absence (data : Value) (v : String) (hv : v.data ≠ [])
    (hstar : ∀ c ∈ v.data, c ∉ ("***" : String).data) :
    ∀ (fields : List String) (e : String), ¬ v.data <:+: e.data →
      ¬ v.data <:+: (fields.foldl (fun em field =>
        (collectSecretValues data field).foldl (fun em' val =>
          if val ≠ "" ∧ 3 < val.length then pyReplace em' val "***" else em') em) e).data := by
  intro fields
  induction fields with
  | nil => intro e h; exact h
  | cons f fs ih =>
    intro e h
    simp only [List.foldl_cons]
    exact ih _ (redact_step_preserves_absence v hv hstar _ e h)

/-- C2 amended: any secret-field string value of the (snake-cased)
merged tree that is longer than 3 characters and does not contain the
mask-marker character `'*'` is absent from the redacted validation
error text, whatever the validator's message was. (The claim as
stated — absence for every value longer than 3 characters — is
refuted by `redact_leak_counterexample`: replacing a value that
overlaps the `"***"` marker can recreate an occurrence of it.) -/
theorem redact_no_leak (data : Value) (errMsg : String) (v : String)
    (hv : v ∈ allSecretValues data) (hlen : 3 < v.length) (hstar : '*' ∉ v.data) :
    ¬ v.data <:+: (redactErrMsg errMsg data).data := by
  have hvd : v.data ≠ [] := by
    intro hnil
    have : v.data.length = 0 := by rw [hnil]; rfl
    have hl : v.length = v.data.length := rfl
    omega
  have hstar' : ∀ c ∈ v.data, c ∉ ("***" : String).data := by
    intro c hc hmem
    rw [show ("***" : String).data = ['*', '*', '*'] from rfl] at hmem
    simp only [List.mem_cons, List.not_mem_nil, or_false] at hmem
    rcases hmem with rfl | rfl | rfl <;> exact hstar hc
  obtain ⟨f, hf, hvf⟩ := List.mem_flatMap.mp hv
  obtain ⟨F1, F2, hfields⟩ := List.append_of_mem hf
  unfold redactErrMsg
  rw [hfields, List.foldl_append, List.foldl_cons]
  exact redact_fields_preserve_absence data v hvd hstar' F2 _
    (redact_values_kill v hlen hstar' (collectSecretValues data f) _ hvf)

/-- Witness for the amended C2: the secret `"sk-secret-key-123"`
(no `'*'` inside) cannot survive redaction of any error message —
here one that quotes it. -/
theorem redact_no_leak_witness :
    ("sk-secret-key-123" ∈ allSecretValues (Value.dict [("api_key",
        Value.str "sk-secret-key-123")]) ∧
      3 < ("sk-secret-key-123" : String).length ∧
      '*' ∉ ("sk-secret-key-123" : String).data) ∧
    ¬ ("sk-secret-key-123" : String).data <:+:
      (redactErrMsg "invalid value 'sk-secret-key-123' for field providers"
        (Value.dict [("api_key", Value.str "sk-secret-key-123")])).data :=
  ⟨⟨by decide, by decide, by decide⟩,
   redact_no_leak (Value.dict [("api_key", Value.str "sk-secret-key-123")])
     "invalid value 'sk-secret-key-123' for field providers" "sk-secret-key-123"
     (by decide) (by decide) (by decide)⟩

/-- Counterexample to C2 as stated: the secret-field value `"***X"`
(longer than 3 characters) of the tree `{"api_key": "***X"}` still
occurs in the redacted form of the error text `"***XX"` — the
replacement `"***XX" → "***X"` recreates an occurrence, so the
surfaced message does contain the secret value as a literal
substring. -/
theorem redact_leak_counterexample :
    "***X" ∈ allSecretValues (Value.dict [("api_key", Value.str "***X")]) ∧
    3 < ("***X" : String).length ∧
    ("***X" : String).data <:+:
      (redactErrMsg "***XX" (Value.dict [("api_key", Value.str "***X")])).data := by
  decide

end NanobotServer
